import Mathlib

/-!
Verification development for the `regex-test` CLI (src/index.ts).

The program's strings are modelled as `List Char`; the JS string
primitives used by the source (`slice`, `indexOf`, `split`, `startsWith`)
are modelled by the corresponding list operations.  The host regex
facility (`RegExp`/`exec`) is not part of the repository; it is abstracted
by an `exec` function together with a well-formedness contract
(`EngineWF`) reflecting its documented behaviour at the boundary.
-/

/-- Characters of a string literal. -/
def str (s : String) : List Char := s.toList

/-- One lexical unit of a pattern and its plain-English description
(interface `ExplainPart`, src/index.ts). -/
structure ExplainPart where
  token : List Char
  meaning : List Char
deriving DecidableEq, Repr

/-- Model of JS `indexOf(t)` over a suffix of the pattern: the text before
the first occurrence of `t` and the text after it, or `none` when `t` does
not occur. -/
def breakAt (t : Char) : List Char → Option (List Char × List Char)
  | [] => none
  | a :: r =>
    if a = t then some ([], r)
    else
      match breakAt t r with
      | none => none
      | some (b, aft) => some (a :: b, aft)

theorem breakAt_some (t : Char) :
    ∀ (l b a : List Char), breakAt t l = some (b, a) → l = b ++ t :: a := by
  intro l
  induction l with
  | nil => intro b a h; simp [breakAt] at h
  | cons x r ih =>
    intro b a h
    by_cases hx : x = t
    · simp [breakAt, hx] at h
      obtain ⟨hb, ha⟩ := h
      subst hb; subst ha; simp [hx]
    · simp only [breakAt, if_neg hx] at h
      cases hbr : breakAt t r with
      | none => rw [hbr] at h; simp at h
      | some p =>
        rw [hbr] at h
        obtain ⟨b', a'⟩ := p
        simp at h
        obtain ⟨hb, ha⟩ := h
        subst hb; subst ha
        simpa using ih b' a' hbr

theorem breakAt_some_length {t : Char} {l b a : List Char}
    (h : breakAt t l = some (b, a)) : a.length < l.length := by
  have := breakAt_some t l b a h
  subst this
  simp
  omega

theorem breakAt_append (t : Char) :
    ∀ (pre post : List Char), t ∉ pre → breakAt t (pre ++ t :: post) = some (pre, post) := by
  intro pre
  induction pre with
  | nil => intro post _; simp [breakAt]
  | cons x r ih =>
    intro post hmem
    have hx : x ≠ t := by
      intro hxs; exact hmem (by simp [hxs])
    have hr : t ∉ r := fun hm => hmem (by simp [hm])
    simp [breakAt, if_neg hx, ih post hr]

/-- The `escapes` lookup table inside `explainRegex` (src/index.ts lines
131-143); `none` models a missing (falsy) entry. -/
def escMeaning (n : Char) : Option (List Char) :=
  if n = 'd' then some (str "Any digit (0-9)")
  else if n = 'D' then some (str "Any non-digit")
  else if n = 'w' then some (str "Any word character (a-z, A-Z, 0-9, _)")
  else if n = 'W' then some (str "Any non-word character")
  else if n = 's' then some (str "Any whitespace (space, tab, newline)")
  else if n = 'S' then some (str "Any non-whitespace")
  else if n = 'b' then some (str "Word boundary")
  else if n = 'B' then some (str "Non-word boundary")
  else if n = 'n' then some (str "Newline")
  else if n = 't' then some (str "Tab")
  else if n = 'r' then some (str "Carriage return")
  else none

/-- One iteration of the `explainRegex` while-loop (src/index.ts lines
105-220): given the character at the scan position and the remaining
characters after it, produce the pushed `ExplainPart` and the remaining
input after the consumed token.  The group disambiguation mirrors the
source's `slice` comparisons via `take`; the `\x7bmin,max\x7d` interior
mirrors `inner.split(",")` destructured to its first two components
(`min` is the text before the first comma, `max` the text between the
first and second comma, or up to the end when there is only one). -/
def scanStep (ch : Char) (rest : List Char) : ExplainPart × List Char :=
  if ch = '^' then (⟨['^'], str "Start of string/line"⟩, rest)
  else if ch = '$' then (⟨['$'], str "End of string/line"⟩, rest)
  else if ch = '.' then (⟨['.'], str "Any character (except newline)"⟩, rest)
  else if ch = '*' then (⟨['*'], str "Zero or more of the previous"⟩, rest)
  else if ch = '+' then (⟨['+'], str "One or more of the previous"⟩, rest)
  else if ch = '?' then (⟨['?'], str "Zero or one of the previous (optional)"⟩, rest)
  else if ch = '|' then (⟨['|'], str "OR (alternative)"⟩, rest)
  else if ch = '\\' then
    match rest with
    | [] => (⟨['\\'], str "Literal \"\""⟩, [])
    | n :: r =>
      match escMeaning n with
      | some m => (⟨['\\', n], m⟩, r)
      | none => (⟨['\\', n], str "Literal \"" ++ [n] ++ str "\""⟩, r)
  else if ch = '[' then
    match breakAt ']' rest with
    | some (b, aft) =>
      let charClass := '[' :: b ++ [']']
      (⟨charClass,
        if rest.head? = some '^' then str "Any character NOT in " ++ charClass
        else str "Any character in " ++ charClass⟩, aft)
    | none =>
      let charClass := '[' :: rest
      (⟨charClass,
        if rest.head? = some '^' then str "Any character NOT in " ++ charClass
        else str "Any character in " ++ charClass⟩, [])
  else if ch = '(' then
    if rest.take 2 = str "?:" then (⟨str "(?:", str "Non-capturing group start"⟩, rest.drop 2)
    else if rest.take 3 = str "?<=" then (⟨str "(?<=", str "Positive lookbehind start"⟩, rest.drop 3)
    else if rest.take 3 = str "?<!" then (⟨str "(?<!", str "Negative lookbehind start"⟩, rest.drop 3)
    else if rest.take 2 = str "?=" then (⟨str "(?=", str "Positive lookahead start"⟩, rest.drop 2)
    else if rest.take 2 = str "?!" then (⟨str "(?!", str "Negative lookahead start"⟩, rest.drop 2)
    else if rest.take 2 = str "?<" then
      match breakAt '>' (rest.drop 2) with
      | some (name, aft) =>
        (⟨str "(?<" ++ name ++ ['>'],
          str "Named capture group \"" ++ name ++ str "\" start"⟩, aft)
      | none => (⟨['('], str "Capture group start"⟩, rest)
    else (⟨['('], str "Capture group start"⟩, rest)
  else if ch = ')' then (⟨[')'], str "Group end"⟩, rest)
  else if ch = '{' then
    match breakAt '}' rest with
    | some (inner, aft) =>
      let quant := '{' :: inner ++ ['}']
      match breakAt ',' inner with
      | some (mn, r1) =>
        let mx := match breakAt ',' r1 with
          | some (m2, _) => m2
          | none => r1
        if mx = [] then (⟨quant, mn ++ str " or more of the previous"⟩, aft)
        else (⟨quant, str "Between " ++ mn ++ str " and " ++ mx ++ str " of the previous"⟩, aft)
      | none => (⟨quant, str "Exactly " ++ inner ++ str " of the previous"⟩, aft)
    | none => (⟨['{'], str "Literal \"" ++ ['{'] ++ str "\""⟩, rest)
  else (⟨[ch], str "Literal \"" ++ [ch] ++ str "\""⟩, rest)

theorem scanStep_spec (ch : Char) (rest : List Char) :
    (scanStep ch rest).1.token ++ (scanStep ch rest).2 = ch :: rest ∧
    (scanStep ch rest).2.length ≤ rest.length := by
  by_cases h1 : ch = '^'
  · subst h1; simp [scanStep]
  by_cases h2 : ch = '$'
  · subst h2; simp [scanStep, h1]
  by_cases h3 : ch = '.'
  · subst h3; simp [scanStep, h1, h2]
  by_cases h4 : ch = '*'
  · subst h4; simp [scanStep, h1, h2, h3]
  by_cases h5 : ch = '+'
  · subst h5; simp [scanStep, h1, h2, h3, h4]
  by_cases h6 : ch = '?'
  · subst h6; simp [scanStep, h1, h2, h3, h4, h5]
  by_cases h7 : ch = '|'
  · subst h7; simp [scanStep, h1, h2, h3, h4, h5, h6]
  by_cases h8 : ch = '\\'
  · subst h8
    cases rest with
    | nil => simp [scanStep, h1, h2, h3, h4, h5, h6, h7]
    | cons n r =>
      cases hm : escMeaning n <;>
        simp [scanStep, h1, h2, h3, h4, h5, h6, h7, hm] <;> omega
  by_cases h9 : ch = '['
  · subst h9
    cases hbr : breakAt ']' rest with
    | none => simp [scanStep, h1, h2, h3, h4, h5, h6, h7, h8, hbr]
    | some p =>
      obtain ⟨b, aft⟩ := p
      have hdec := breakAt_some ']' rest b aft hbr
      subst hdec
      simp [scanStep, h1, h2, h3, h4, h5, h6, h7, h8, hbr] <;> omega
  by_cases h10 : ch = '('
  · subst h10
    by_cases g1 : rest.take 2 = ['?', ':']
    · have hsp := List.take_append_drop 2 rest
      rw [g1] at hsp
      constructor
      · simp [scanStep, str, h1, h2, h3, h4, h5, h6, h7, h8, h9, g1]
        conv_rhs => rw [← hsp]
        simp
      · simp [scanStep, str, h1, h2, h3, h4, h5, h6, h7, h8, h9, g1]
    by_cases g2 : rest.take 3 = ['?', '<', '=']
    · have hsp := List.take_append_drop 3 rest
      rw [g2] at hsp
      constructor
      · simp [scanStep, str, h1, h2, h3, h4, h5, h6, h7, h8, h9, g1, g2]
        conv_rhs => rw [← hsp]
        simp
      · simp [scanStep, str, h1, h2, h3, h4, h5, h6, h7, h8, h9, g1, g2]
    by_cases g3 : rest.take 3 = ['?', '<', '!']
    · have hsp := List.take_append_drop 3 rest
      rw [g3] at hsp
      constructor
      · simp [scanStep, str, h1, h2, h3, h4, h5, h6, h7, h8, h9, g1, g2, g3]
        conv_rhs => rw [← hsp]
        simp
      · simp [scanStep, str, h1, h2, h3, h4, h5, h6, h7, h8, h9, g1, g2, g3]
    by_cases g4 : rest.take 2 = ['?', '=']
    · have hsp := List.take_append_drop 2 rest
      rw [g4] at hsp
      constructor
      · simp [scanStep, str, h1, h2, h3, h4, h5, h6, h7, h8, h9, g1, g2, g3, g4]
        conv_rhs => rw [← hsp]
        simp
      · simp [scanStep, str, h1, h2, h3, h4, h5, h6, h7, h8, h9, g1, g2, g3, g4]
    by_cases g5 : rest.take 2 = ['?', '!']
    · have hsp := List.take_append_drop 2 rest
      rw [g5] at hsp
      constructor
      · simp [scanStep, str, h1, h2, h3, h4, h5, h6, h7, h8, h9, g1, g2, g3, g4, g5]
        conv_rhs => rw [← hsp]
        simp
      · simp [scanStep, str, h1, h2, h3, h4, h5, h6, h7, h8, h9, g1, g2, g3, g4, g5]
    by_cases g6 : rest.take 2 = ['?', '<']
    · cases hbr : breakAt '>' (rest.drop 2) with
      | none =>
        simp [scanStep, str, h1, h2, h3, h4, h5, h6, h7, h8, h9, g1, g2, g3, g4, g5, g6, hbr]
      | some p =>
        obtain ⟨name, aft⟩ := p
        have hdec := breakAt_some '>' (rest.drop 2) name aft hbr
        have hlen := breakAt_some_length hbr
        have hlen2 : (rest.drop 2).length ≤ rest.length := by simp
        have hsp := List.take_append_drop 2 rest
        rw [g6, hdec] at hsp
        constructor
        · simp [scanStep, str, h1, h2, h3, h4, h5, h6, h7, h8, h9, g1, g2, g3, g4, g5, g6, hbr]
          conv_rhs => rw [← hsp]
          simp
        · simp [scanStep, str, h1, h2, h3, h4, h5, h6, h7, h8, h9, g1, g2, g3, g4, g5, g6, hbr]
          omega
    · simp [scanStep, str, h1, h2, h3, h4, h5, h6, h7, h8, h9, g1, g2, g3, g4, g5, g6]
  by_cases h11 : ch = ')'
  · subst h11; simp [scanStep, str, h1, h2, h3, h4, h5, h6, h7, h8, h9, h10]
  by_cases h12 : ch = '{'
  · subst h12
    cases hbr : breakAt '}' rest with
    | none => simp [scanStep, str, h1, h2, h3, h4, h5, h6, h7, h8, h9, h10, h11, hbr]
    | some p =>
      obtain ⟨inner, aft⟩ := p
      have hdec := breakAt_some '}' rest inner aft hbr
      subst hdec
      cases hc : breakAt ',' inner with
      | none =>
        simp [scanStep, str, h1, h2, h3, h4, h5, h6, h7, h8, h9, h10, h11, hbr, hc] <;> omega
      | some q =>
        obtain ⟨mn, r1⟩ := q
        cases hc2 : breakAt ',' r1 with
        | none =>
          by_cases hmx : r1 = []
          · simp [scanStep, str, breakAt, h1, h2, h3, h4, h5, h6, h7, h8, h9, h10, h11, hbr, hc, hc2, hmx] <;>
              omega
          · simp [scanStep, str, h1, h2, h3, h4, h5, h6, h7, h8, h9, h10, h11, hbr, hc, hc2, hmx] <;>
              omega
        | some q2 =>
          obtain ⟨m2, r2⟩ := q2
          by_cases hmx : m2 = [] <;>
            simp [scanStep, str, h1, h2, h3, h4, h5, h6, h7, h8, h9, h10, h11, hbr, hc, hc2, hmx] <;>
            omega
  · simp [scanStep, str, h1, h2, h3, h4, h5, h6, h7, h8, h9, h10, h11, h12]

theorem scanStep_token (ch : Char) (rest : List Char) :
    (scanStep ch rest).1.token ++ (scanStep ch rest).2 = ch :: rest :=
  (scanStep_spec ch rest).1

theorem scanStep_le (ch : Char) (rest : List Char) :
    (scanStep ch rest).2.length ≤ rest.length :=
  (scanStep_spec ch rest).2

theorem scanStep_token_ne (ch : Char) (rest : List Char) :
    (scanStep ch rest).1.token ≠ [] := by
  intro hnil
  have h := scanStep_token ch rest
  rw [hnil] at h
  simp at h
  have := scanStep_le ch rest
  rw [h] at this
  simp at this

/-- The `explainRegex` scan loop run with explicit fuel; each iteration
consumes at least one character, so fuel `cs.length` always suffices
(`explainGo_fuel`). -/
def explainGo : Nat → List Char → List ExplainPart
  | _, [] => []
  | 0, _ :: _ => []
  | fuel + 1, ch :: rest =>
    (scanStep ch rest).1 :: explainGo fuel (scanStep ch rest).2

/-- `explainRegex` (src/index.ts lines 101-223): single left-to-right
tokenization of a pattern into `ExplainPart`s. -/
def explainRegex (cs : List Char) : List ExplainPart := explainGo cs.length cs

theorem explainGo_fuel :
    ∀ (f₁ f₂ : Nat) (cs : List Char), cs.length ≤ f₁ → cs.length ≤ f₂ →
      explainGo f₁ cs = explainGo f₂ cs := by
  intro f₁
  induction f₁ with
  | zero =>
    intro f₂ cs h1 _
    have : cs = [] := List.length_eq_zero.mp (Nat.le_zero.mp h1)
    subst this
    cases f₂ <;> rfl
  | succ g ih =>
    intro f₂ cs h1 h2
    cases cs with
    | nil => cases f₂ <;> rfl
    | cons ch rest =>
      cases f₂ with
      | zero => simp at h2
      | succ g₂ =>
        simp only [explainGo]
        have hle := scanStep_le ch rest
        have hrest : rest.length + 1 = (ch :: rest).length := by simp
        congr 1
        exact ih g₂ (scanStep ch rest).2
          (by simp at h1; omega) (by simp at h2; omega)

theorem explainRegex_cons (ch : Char) (rest : List Char) :
    explainRegex (ch :: rest) = (scanStep ch rest).1 :: explainRegex (scanStep ch rest).2 := by
  show explainGo (rest.length + 1) (ch :: rest) = _
  simp only [explainGo]
  congr 1
  exact explainGo_fuel rest.length (scanStep ch rest).2.length (scanStep ch rest).2
    (scanStep_le ch rest) (Nat.le_refl _)

theorem explain_tokens_join (cs : List Char) :
    ((explainRegex cs).map ExplainPart.token).flatten = cs := by
  match cs with
  | [] => rfl
  | ch :: rest =>
    rw [explainRegex_cons]
    have ih := explain_tokens_join (scanStep ch rest).2
    simp only [List.map_cons, List.flatten_cons]
    rw [ih]
    exact scanStep_token ch rest
termination_by cs.length
decreasing_by
  simp only [List.length_cons]
  exact Nat.lt_succ_of_le (scanStep_le ch rest)

theorem explain_length_le (cs : List Char) :
    (explainRegex cs).length ≤ cs.length := by
  match cs with
  | [] => simp [explainRegex, explainGo]
  | ch :: rest =>
    rw [explainRegex_cons]
    have ih := explain_length_le (scanStep ch rest).2
    have hle := scanStep_le ch rest
    simp only [List.length_cons]
    omega
termination_by cs.length
decreasing_by
  simp only [List.length_cons]
  exact Nat.lt_succ_of_le (scanStep_le ch rest)

theorem explain_token_ne (cs : List Char) :
    ∀ p, p ∈ explainRegex cs → p.token ≠ [] := by
  match cs with
  | [] => intro p hp; simp [explainRegex, explainGo] at hp
  | ch :: rest =>
    intro p hp
    rw [explainRegex_cons] at hp
    rcases List.mem_cons.mp hp with h | h
    · subst h; exact scanStep_token_ne ch rest
    · exact explain_token_ne (scanStep ch rest).2 p h
termination_by cs.length
decreasing_by
  simp only [List.length_cons]
  exact Nat.lt_succ_of_le (scanStep_le ch rest)

theorem breakAt_none (t : Char) : ∀ l, t ∉ l → breakAt t l = none := by
  intro l
  induction l with
  | nil => intro _; rfl
  | cons x r ih =>
    intro hmem
    have hx : x ≠ t := by
      intro hxs; exact hmem (by simp [hxs])
    have hr : t ∉ r := fun hm => hmem (by simp [hm])
    simp [breakAt, if_neg hx, ih hr]

/-- C1: concatenating the `token` fields of the `ExplainPart` sequence
produced by `explainRegex`, in order, exactly reconstructs the pattern for
every input, so the token spans cover the pattern left to right with no
gaps and no overlaps. -/
theorem explainRegex_tokens_reconstruct (cs : List Char) :
    ((explainRegex cs).map ExplainPart.token).flatten = cs :=
  explain_tokens_join cs

/-- C3: every branch of the scan loop advances the position by at least one
character, `explainRegex` is a total function emitting at most one token
per input character, every token is nonempty, and unrecognized characters
degrade to literal-character tokens. -/
theorem explainRegex_total (ch : Char) (rest cs : List Char) :
    (scanStep ch rest).2.length < (ch :: rest).length ∧
    (explainRegex cs).length ≤ cs.length ∧
    (∀ p, p ∈ explainRegex cs → p.token ≠ []) ∧
    (ch ∉ ['^', '$', '.', '*', '+', '?', '|', '\\', '[', '(', ')', '{'] →
      scanStep ch rest = (⟨[ch], str "Literal \"" ++ [ch] ++ str "\""⟩, rest)) := by
  refine ⟨?_, explain_length_le cs, explain_token_ne cs, ?_⟩
  · simpa using Nat.lt_succ_of_le (scanStep_le ch rest)
  · intro hch
    simp only [List.mem_cons, List.mem_singleton, not_or] at hch
    obtain ⟨n1, n2, n3, n4, n5, n6, n7, n8, n9, n10, n11, n12⟩ := hch
    simp [scanStep, n1, n2, n3, n4, n5, n6, n7, n8, n9, n10, n11, n12]

theorem explainRegex_total_witness :
    scanStep 'a' [] = (⟨['a'], str "Literal \"" ++ ['a'] ++ str "\""⟩, []) :=
  (explainRegex_total 'a' [] []).2.2.2 (by decide)

/-- C2 counterexample: for the bounded-repetition token with interior
`a,b,c` the meaning is "Between a and b of the previous"; the component `c`
is dropped, so the full interior does not appear in the meaning text. -/
theorem quantifier_counterexample :
    (explainRegex ['{', 'a', ',', 'b', ',', 'c', '}']).map ExplainPart.meaning =
      [str "Between a and b of the previous"] ∧
    ¬ (['a', ',', 'b', ',', 'c'] <:+: str "Between a and b of the previous") := by
  decide

/-- C2 (amended): a bracketed repetition with a later closing brace is one
token spanning the whole bracket; the interior is split at commas with
`min` the text before the first comma and `max` the text between the first
and second comma (or up to the closing brace when there is only one
comma): no comma gives "Exactly interior", an empty `max` gives "min or
more", otherwise "Between min and max" — any content after the second
comma stays in the token but is dropped from the meaning; no numeric
validation is performed. -/
theorem quantifier_token_meaning (mn mx tr aft : List Char)
    (hmn1 : ',' ∉ mn) (hmn2 : '}' ∉ mn) (hmx1 : ',' ∉ mx) (hmx2 : '}' ∉ mx)
    (htr : '}' ∉ tr) :
    (scanStep '{' (mn ++ '}' :: aft) =
      (⟨'{' :: mn ++ ['}'], str "Exactly " ++ mn ++ str " of the previous"⟩, aft)) ∧
    (scanStep '{' (mn ++ ',' :: mx ++ '}' :: aft) =
      (⟨'{' :: (mn ++ ',' :: mx) ++ ['}'],
        if mx = [] then mn ++ str " or more of the previous"
        else str "Between " ++ mn ++ str " and " ++ mx ++ str " of the previous"⟩, aft)) ∧
    (scanStep '{' (mn ++ ',' :: mx ++ ',' :: tr ++ '}' :: aft) =
      (⟨'{' :: (mn ++ ',' :: mx ++ ',' :: tr) ++ ['}'],
        if mx = [] then mn ++ str " or more of the previous"
        else str "Between " ++ mn ++ str " and " ++ mx ++ str " of the previous"⟩, aft)) := by
  refine ⟨?_, ?_, ?_⟩
  · have hb1 : breakAt '}' (mn ++ '}' :: aft) = some (mn, aft) :=
      breakAt_append '}' mn aft hmn2
    have hb2 : breakAt ',' mn = none := breakAt_none ',' mn hmn1
    simp [scanStep, hb1, hb2]
  · have hpre : ('}' : Char) ∉ mn ++ ',' :: mx := by
      simp [hmn2, hmx2]
    have hb1 : breakAt '}' (mn ++ ',' :: (mx ++ '}' :: aft)) = some (mn ++ ',' :: mx, aft) := by
      have h0 := breakAt_append '}' (mn ++ ',' :: mx) aft hpre
      simpa using h0
    have hb2 : breakAt ',' (mn ++ ',' :: mx) = some (mn, mx) :=
      breakAt_append ',' mn mx hmn1
    have hb3 : breakAt ',' mx = none := breakAt_none ',' mx hmx1
    simp [scanStep, hb1, hb2, hb3]
    split_ifs <;> simp
  · have hpre : ('}' : Char) ∉ mn ++ ',' :: mx ++ ',' :: tr := by
      simp [hmn2, hmx2, htr]
    have hb1 : breakAt '}' (mn ++ ',' :: (mx ++ ',' :: (tr ++ '}' :: aft))) =
        some (mn ++ ',' :: (mx ++ ',' :: tr), aft) := by
      have h0 := breakAt_append '}' (mn ++ ',' :: mx ++ ',' :: tr) aft hpre
      simpa using h0
    have hb2 : breakAt ',' (mn ++ ',' :: (mx ++ ',' :: tr)) = some (mn, mx ++ ',' :: tr) := by
      have h0 := breakAt_append ',' mn (mx ++ ',' :: tr) hmn1
      simpa using h0
    have hb3 : breakAt ',' (mx ++ ',' :: tr) = some (mx, tr) :=
      breakAt_append ',' mx tr hmx1
    simp [scanStep, hb1, hb2, hb3]
    split_ifs <;> simp

theorem quantifier_token_meaning_witness :
    scanStep '{' (['2'] ++ ',' :: ['5'] ++ ',' :: ['9'] ++ '}' :: []) =
      (⟨'{' :: (['2'] ++ ',' :: ['5'] ++ ',' :: ['9']) ++ ['}'],
        str "Between 2 and 5 of the previous"⟩, []) := by
  have h := (quantifier_token_meaning ['2'] ['5'] ['9'] []
    (by decide) (by decide) (by decide) (by decide) (by decide)).2.2
  simpa using h

/-- Scan states of `explainRegex`: `ScanReaches cs ds` holds when the scan
of `cs` at some iteration has exactly `ds` left to consume. -/
inductive ScanReaches : List Char → List Char → Prop
  | refl (cs : List Char) : ScanReaches cs cs
  | step (ch : Char) (rest ds : List Char) :
      ScanReaches (scanStep ch rest).2 ds → ScanReaches (ch :: rest) ds

theorem scanReaches_decomp {cs ds : List Char} (h : ScanReaches cs ds) :
    ∃ ts, explainRegex cs = ts ++ explainRegex ds := by
  induction h with
  | refl cs => exact ⟨[], rfl⟩
  | step ch rest ds _ ih =>
    obtain ⟨ts, hts⟩ := ih
    refine ⟨(scanStep ch rest).1 :: ts, ?_⟩
    rw [explainRegex_cons, hts]
    rfl

/-- C10 counterexample: the pattern consisting of `[` followed by a single
trailing backslash ends in a single backslash, but its last (only) token
is the two-character class token, not the one-character string containing
the backslash. -/
theorem trailing_backslash_counterexample :
    ((explainRegex (str "[\\")).map ExplainPart.token).getLast? = some (str "[\\") ∧
    str "[\\" ≠ str "\\" := by decide

/-- C10 (amended): whenever the scan reaches the trailing single backslash
as a token start (rather than inside a class/quantifier/named-group span),
the emitted final token is the one-character string containing the
backslash with meaning quoting the empty string, the scan terminates, and
the token concatenation still equals the pattern. -/
theorem trailing_backslash_amended (cs : List Char) (h : ScanReaches cs ['\\']) :
    (explainRegex cs).getLast? = some ⟨['\\'], str "Literal \"\""⟩ ∧
    ((explainRegex cs).map ExplainPart.token).flatten = cs := by
  obtain ⟨ts, hts⟩ := scanReaches_decomp h
  constructor
  · rw [hts]
    have hone : explainRegex ['\\'] = [⟨['\\'], str "Literal \"\""⟩] := by decide
    rw [hone]
    exact List.getLast?_concat _
  · exact explain_tokens_join cs

theorem trailing_backslash_witness :
    (explainRegex (str "a\\")).getLast? = some ⟨['\\'], str "Literal \"\""⟩ := by
  have hstep : ScanReaches (str "a\\") ['\\'] := by
    show ScanReaches ('a' :: ['\\']) ['\\']
    refine ScanReaches.step 'a' ['\\'] ['\\'] ?_
    have h1 : (scanStep 'a' ['\\']).2 = ['\\'] := by decide
    rw [h1]
    exact ScanReaches.refl _
  exact (trailing_backslash_amended (str "a\\") hstep).1

/-- Modelled from the spec (§6, host regex facility): one raw match object
as returned by the host `exec` — `full` is `match[0]`, `index` the start
offset, `groups` the positional captures `match.slice(1)` (`none` models a
non-participating capture, JS `undefined`), and `named` the optional
`match.groups` object (`none` when the pattern declares no named groups). -/
structure RawMatch where
  full : List Char
  index : Nat
  groups : List (Option (List Char))
  named : Option (List (List Char × List Char))
deriving DecidableEq, Repr

/-- One normalized match record pushed onto `result.matches`
(src/index.ts lines 257-262 and 268-273). -/
structure MatchRecord where
  full : List Char
  index : Nat
  groups : List (Option (List Char))
  namedGroups : List (List Char × List Char)
deriving DecidableEq, Repr

/-- Normalization of a raw host match into a `MatchRecord`:
`full = match[0]`, `index = match.index`, `groups = match.slice(1)`,
`namedGroups = match.groups ? copy : empty`. -/
def toRecord (m : RawMatch) : MatchRecord :=
  ⟨m.full, m.index, m.groups, m.named.getD []⟩

/-- The scan cursor after one global-mode iteration: the host sets
`lastIndex` to `index + full.length`; on a zero-length match the source
additionally advances it by one (src/index.ts line 263). -/
def nextLastIndex (m : RawMatch) : Nat :=
  if m.full.length = 0 then m.index + 1 else m.index + m.full.length

/-- JS `input.slice(a, b)` for `0 ≤ a, b`. -/
def sliceJS (s : List Char) (a b : Nat) : List Char := (s.take b).drop a

/-- Modelled from the spec (§6, host regex facility): well-formedness of
the host `exec` against a fixed input — a match found from cursor `pos`
starts at or after `pos`, lies within the input, and its text is the slice
of the input at its span. -/
def EngineWF (exec : Nat → Option RawMatch) (input : List Char) : Prop :=
  ∀ pos m, exec pos = some m →
    pos ≤ m.index ∧ m.index + m.full.length ≤ input.length ∧
    m.full = sliceJS input m.index (m.index + m.full.length)

/-- The global-flag match-collection loop of `testString` (src/index.ts
lines 254-264), run with explicit fuel; fuel `input.length + 1` suffices
for any well-formed engine (`collectGo_fuel`). -/
def collectGo (exec : Nat → Option RawMatch) : Nat → Nat → List MatchRecord
  | 0, _ => []
  | fuel + 1, pos =>
    match exec pos with
    | none => []
    | some m => toRecord m :: collectGo exec fuel (nextLastIndex m)

/-- All matches collected in global mode starting from cursor 0. -/
def collectGlobal (exec : Nat → Option RawMatch) (L : Nat) : List MatchRecord :=
  collectGo exec (L + 1) 0

/-- Non-global mode: a single `exec` producing zero or one record
(src/index.ts lines 265-275). -/
def collectNonGlobal (exec : Nat → Option RawMatch) : List MatchRecord :=
  match exec 0 with
  | none => []
  | some m => [toRecord m]

theorem collectGo_exec_none {exec : Nat → Option RawMatch} {L : Nat}
    (hwf : ∀ pos m, exec pos = some m → pos ≤ m.index ∧ m.index + m.full.length ≤ L)
    {pos : Nat} (hpos : L < pos) : exec pos = none := by
  cases hm : exec pos with
  | none => rfl
  | some m =>
    have h := hwf pos m hm
    omega

theorem nextLastIndex_lt {exec : Nat → Option RawMatch} {L : Nat}
    (hwf : ∀ pos m, exec pos = some m → pos ≤ m.index ∧ m.index + m.full.length ≤ L)
    {pos : Nat} {m : RawMatch} (hm : exec pos = some m) :
    pos < nextLastIndex m ∧ nextLastIndex m ≤ L + 1 := by
  have h := hwf pos m hm
  unfold nextLastIndex
  split_ifs with hz <;> omega

theorem collectGo_fuel {exec : Nat → Option RawMatch} {L : Nat}
    (hwf : ∀ pos m, exec pos = some m → pos ≤ m.index ∧ m.index + m.full.length ≤ L) :
    ∀ (f₁ : Nat) (pos : Nat) (f₂ : Nat), L + 1 - pos ≤ f₁ → L + 1 - pos ≤ f₂ →
      collectGo exec f₁ pos = collectGo exec f₂ pos := by
  intro f₁
  induction f₁ with
  | zero =>
    intro pos f₂ h1 _
    have hpos : L < pos := by omega
    have hnone := collectGo_exec_none hwf hpos
    cases f₂ with
    | zero => rfl
    | succ g => simp [collectGo, hnone]
  | succ g ih =>
    intro pos f₂ h1 h2
    by_cases hpos : L < pos
    · have hnone := collectGo_exec_none hwf hpos
      cases f₂ with
      | zero => simp [collectGo, hnone]
      | succ g₂ => simp [collectGo, hnone]
    · cases f₂ with
      | zero => omega
      | succ g₂ =>
        simp only [collectGo]
        cases hm : exec pos with
        | none => rfl
        | some m =>
          have hadv := nextLastIndex_lt hwf hm
          have := ih (nextLastIndex m) g₂ (by omega) (by omega)
          simp [this]

theorem collectGo_length {exec : Nat → Option RawMatch} {L : Nat}
    (hwf : ∀ pos m, exec pos = some m → pos ≤ m.index ∧ m.index + m.full.length ≤ L) :
    ∀ (f : Nat) (pos : Nat), (collectGo exec f pos).length ≤ L + 1 - pos := by
  intro f
  induction f with
  | zero => intro pos; simp [collectGo]
  | succ g ih =>
    intro pos
    by_cases hpos : L < pos
    · simp [collectGo, collectGo_exec_none hwf hpos]
    · simp only [collectGo]
      cases hm : exec pos with
      | none => simp
      | some m =>
        have hadv := nextLastIndex_lt hwf hm
        have hrec := ih (nextLastIndex m)
        simp only [List.length_cons]
        omega

/-- C4: under the host engine contract, the global match-collection loop of
`testString` terminates — its result is independent of any fuel of at least
`L + 1` iterations, because the cursor strictly advances each iteration
(by one past each zero-length match) — and it produces at most `L + 1`
matches on an input of length `L`. -/
theorem collectGlobal_terminates (exec : Nat → Option RawMatch) (input : List Char)
    (hwf : ∀ pos m, exec pos = some m →
      pos ≤ m.index ∧ m.index + m.full.length ≤ input.length) :
    (∀ f, input.length + 1 ≤ f →
      collectGo exec f 0 = collectGlobal exec input.length) ∧
    (collectGlobal exec input.length).length ≤ input.length + 1 := by
  constructor
  · intro f hf
    exact collectGo_fuel hwf f 0 (input.length + 1) (by omega) (by omega)
  · have := collectGo_length hwf (input.length + 1) 0
    simpa [collectGlobal] using this

/-- A host engine for the empty pattern on a two-character input: a
zero-length match at every cursor position inside the input. -/
def emptyPatternExec : Nat → Option RawMatch :=
  fun pos => if pos ≤ 2 then some ⟨[], pos, [], none⟩ else none

theorem emptyPatternExec_wf :
    ∀ pos m, emptyPatternExec pos = some m →
      pos ≤ m.index ∧ m.index + m.full.length ≤ (['a', 'b'] : List Char).length := by
  intro pos m hm
  by_cases hp : pos ≤ 2 <;> simp [emptyPatternExec, hp] at hm
  subst hm
  simpa using hp

theorem collectGlobal_terminates_witness :
    (collectGlobal emptyPatternExec (['a', 'b'] : List Char).length).length ≤
      (['a', 'b'] : List Char).length + 1 :=
  (collectGlobal_terminates emptyPatternExec ['a', 'b'] emptyPatternExec_wf).2

theorem collectGo_mem {exec : Nat → Option RawMatch} :
    ∀ (f pos : Nat) (r : MatchRecord), r ∈ collectGo exec f pos →
      ∃ p m, exec p = some m ∧ r = toRecord m := by
  intro f
  induction f with
  | zero => intro pos r hr; simp [collectGo] at hr
  | succ g ih =>
    intro pos r hr
    simp only [collectGo] at hr
    cases hm : exec pos with
    | none => rw [hm] at hr; simp at hr
    | some m =>
      rw [hm] at hr
      rcases List.mem_cons.mp hr with h | h
      · exact ⟨pos, m, hm, h⟩
      · exact ih (nextLastIndex m) r h

/-- C5: every record produced by the match loops is the normalization of a
raw host match: `full` is the matched text, `index` its offset, `groups`
the positional captures after the full match with absent entries kept as
`none` (distinguishable from `some []`), and `namedGroups` the named
mapping, empty when the pattern declares no named groups; non-global mode
executes at most once, producing zero or one record. -/
theorem matchRecord_normalization (exec : Nat → Option RawMatch) :
    (collectNonGlobal exec).length ≤ 1 ∧
    (∀ r, r ∈ collectNonGlobal exec → ∃ m, exec 0 = some m ∧ r = toRecord m) ∧
    (∀ f pos r, r ∈ collectGo exec f pos → ∃ p m, exec p = some m ∧ r = toRecord m) ∧
    (∀ m : RawMatch, (toRecord m).full = m.full ∧ (toRecord m).index = m.index ∧
      (toRecord m).groups = m.groups ∧
      (m.named = none → (toRecord m).namedGroups = []) ∧
      (∀ g, m.named = some g → (toRecord m).namedGroups = g)) := by
  refine ⟨?_, ?_, ?_, ?_⟩
  · unfold collectNonGlobal
    cases exec 0 <;> simp
  · intro r hr
    unfold collectNonGlobal at hr
    cases hm : exec 0 with
    | none => rw [hm] at hr; simp at hr
    | some m =>
      rw [hm] at hr
      simp at hr
      exact ⟨m, rfl, hr⟩
  · exact collectGo_mem
  · intro m
    refine ⟨rfl, rfl, rfl, ?_, ?_⟩
    · intro hn; simp [toRecord, hn]
    · intro g hn; simp [toRecord, hn]

/-- A host engine producing one match with an absent capture, an
empty-string capture and a named group. -/
def demoExec : Nat → Option RawMatch :=
  fun pos =>
    if pos = 0 then some ⟨['a', 'b'], 1, [none, some []], some [(['y'], ['a'])]⟩ else none

theorem matchRecord_normalization_witness :
    ∃ m, demoExec 0 = some m ∧
      (⟨['a', 'b'], 1, [none, some []], [(['y'], ['a'])]⟩ : MatchRecord) = toRecord m :=
  (matchRecord_normalization demoExec).2.1
    ⟨['a', 'b'], 1, [none, some []], [(['y'], ['a'])]⟩ (by decide)

/-- The cyclic highlight palette `MATCH_COLORS` (src/index.ts line 25):
bgGreen, bgYellow, bgCyan, bgMagenta, bgBlue, bgRed. -/
def MATCH_COLORS : List (List Char) :=
  [str "\x1b[42m", str "\x1b[43m", str "\x1b[46m",
   str "\x1b[45m", str "\x1b[44m", str "\x1b[41m"]

/-- ANSI bold, `c.bold`. -/
def boldCode : List Char := str "\x1b[1m"

/-- ANSI reset, `c.reset`. -/
def resetCode : List Char := str "\x1b[0m"

/-- `MATCH_COLORS[mi % MATCH_COLORS.length]` (src/index.ts line 283). -/
def colorOf (mi : Nat) : List Char :=
  MATCH_COLORS.getD (mi % MATCH_COLORS.length) []

/-- The highlight-construction loop of `testString` (src/index.ts lines
279-288): copy the input verbatim between match spans, wrap each matched
text in its colour marker, and append the trailing text. -/
def highlightGo (input : List Char) : Nat → Nat → List MatchRecord → List Char
  | lastEnd, _, [] => input.drop lastEnd
  | lastEnd, mi, m :: rest =>
    sliceJS input lastEnd m.index ++ colorOf mi ++ boldCode ++ m.full ++ resetCode ++
      highlightGo input (m.index + m.full.length) (mi + 1) rest

/-- `result.highlighted` (src/index.ts lines 250 and 278-290): the input
itself when there are no matches, otherwise the constructed highlight. -/
def buildHighlighted (input : List Char) (ms : List MatchRecord) : List Char :=
  if 0 < ms.length then highlightGo input 0 0 ms else input

/-- A segment of the highlighted string: verbatim input text or a colour
marker. -/
inductive Seg where
  | text (s : List Char)
  | mark (s : List Char)
deriving DecidableEq, Repr

/-- The characters a segment contributes to the highlighted string. -/
def segPayload : Seg → List Char
  | .text s => s
  | .mark s => s

/-- The characters remaining after colour markers are removed. -/
def segVisible : Seg → List Char
  | .text s => s
  | .mark _ => []

def segRender (l : List Seg) : List Char := (l.map segPayload).flatten

def segText (l : List Seg) : List Char := (l.map segVisible).flatten

/-- The highlight loop decomposed into its text and marker segments. -/
def highlightSegs (input : List Char) : Nat → Nat → List MatchRecord → List Seg
  | lastEnd, _, [] => [.text (input.drop lastEnd)]
  | lastEnd, mi, m :: rest =>
    .text (sliceJS input lastEnd m.index) :: .mark (colorOf mi ++ boldCode) ::
      .text m.full :: .mark resetCode ::
      highlightSegs input (m.index + m.full.length) (mi + 1) rest

/-- Well-formed match spans relative to a cursor: each match starts at or
after the cursor, lies within the input, its text is the input's slice at
its span, and the next spans are well-formed after it. -/
def spansOK (input : List Char) : Nat → List MatchRecord → Bool
  | _, [] => true
  | pos, m :: rest =>
    decide (pos ≤ m.index) && decide (m.index + m.full.length ≤ input.length) &&
    (m.full == sliceJS input m.index (m.index + m.full.length)) &&
    spansOK input (m.index + m.full.length) rest

theorem slice_append_drop (l : List Char) (a b : Nat) (h1 : a ≤ b) (h2 : b ≤ l.length) :
    sliceJS l a b ++ l.drop b = l.drop a := by
  have h3 : (l.take b).length = b := by simp [List.length_take]; omega
  unfold sliceJS
  conv_rhs => rw [← List.take_append_drop b l]
  rw [List.drop_append_eq_append_drop, h3, Nat.sub_eq_zero_of_le h1, List.drop_zero]

theorem highlightGo_eq_segRender (input : List Char) :
    ∀ (ms : List MatchRecord) (lastEnd mi : Nat),
      highlightGo input lastEnd mi ms = segRender (highlightSegs input lastEnd mi ms) := by
  intro ms
  induction ms with
  | nil => intro lastEnd mi; simp [highlightGo, highlightSegs, segRender, segPayload]
  | cons m rest ih =>
    intro lastEnd mi
    simp [highlightGo, highlightSegs, segRender, segPayload, ih (m.index + m.full.length) (mi + 1)]

theorem segText_recovers (input : List Char) :
    ∀ (ms : List MatchRecord) (pos mi : Nat),
      spansOK input pos ms = true → pos ≤ input.length →
      segText (highlightSegs input pos mi ms) = input.drop pos := by
  intro ms
  induction ms with
  | nil => intro pos mi _ _; simp [highlightSegs, segText, segVisible]
  | cons m rest ih =>
    intro pos mi hok hpos
    simp only [spansOK, Bool.and_eq_true, decide_eq_true_eq, beq_iff_eq] at hok
    obtain ⟨⟨⟨h1, h2⟩, h3⟩, h4⟩ := hok
    have hrec := ih (m.index + m.full.length) (mi + 1) h4 h2
    simp only [segText] at hrec
    simp only [highlightSegs, segText, List.map_cons, List.flatten_cons, segVisible,
      List.nil_append]
    rw [hrec]
    nth_rewrite 1 [h3]
    rw [slice_append_drop input m.index (m.index + m.full.length) (by omega) h2]
    exact slice_append_drop input pos m.index h1 (by omega)

theorem collectGo_spans {exec : Nat → Option RawMatch} {input : List Char}
    (hwf : EngineWF exec input) :
    ∀ (f pos : Nat), spansOK input pos (collectGo exec f pos) = true := by
  intro f
  induction f with
  | zero => intro pos; simp [collectGo, spansOK]
  | succ g ih =>
    intro pos
    simp only [collectGo]
    cases hm : exec pos with
    | none => simp [spansOK]
    | some m =>
      obtain ⟨w1, w2, w3⟩ := hwf pos m hm
      have hrec := ih (nextLastIndex m)
      have hmono : ∀ ms p p', p' ≤ p → spansOK input p ms = true → spansOK input p' ms = true := by
        intro ms
        induction ms with
        | nil => intro p p' _ _; simp [spansOK]
        | cons x xs _ =>
          intro p p' hle hok
          simp only [spansOK, Bool.and_eq_true, decide_eq_true_eq] at hok ⊢
          obtain ⟨⟨⟨a1, a2⟩, a3⟩, a4⟩ := hok
          exact ⟨⟨⟨by omega, a2⟩, a3⟩, a4⟩
      have hnext : m.index + m.full.length ≤ nextLastIndex m := by
        unfold nextLastIndex
        split_ifs <;> omega
      simp only [spansOK, Bool.and_eq_true, decide_eq_true_eq, beq_iff_eq, toRecord]
      exact ⟨⟨⟨w1, w2⟩, w3⟩, hmono _ _ _ hnext hrec⟩

/-- C6: with no matches the highlighted string is the input verbatim;
otherwise it renders the segment decomposition that copies the input
verbatim around each match and wraps each matched text in the colour
marker of its ordinal modulo the six-colour palette; removing the colour
markers (keeping only text segments) recovers the input exactly, in
particular for every match list produced by a well-formed host engine. -/
theorem highlighted_recovers_input (input : List Char) (ms : List MatchRecord)
    (exec : Nat → Option RawMatch) :
    (ms = [] → buildHighlighted input ms = input) ∧
    (0 < ms.length → buildHighlighted input ms = segRender (highlightSegs input 0 0 ms)) ∧
    (spansOK input 0 ms = true → segText (highlightSegs input 0 0 ms) = input) ∧
    (EngineWF exec input →
      segText (highlightSegs input 0 0 (collectGlobal exec input.length)) = input) ∧
    MATCH_COLORS.length = 6 ∧
    (∀ mi, colorOf (mi + MATCH_COLORS.length) = colorOf mi) := by
  refine ⟨?_, ?_, ?_, ?_, rfl, ?_⟩
  · intro h; simp [buildHighlighted, h]
  · intro h
    simp only [buildHighlighted, if_pos h]
    exact highlightGo_eq_segRender input ms 0 0
  · intro h
    simpa using segText_recovers input ms 0 0 h (by omega)
  · intro hwf
    have hsp := collectGo_spans hwf (input.length + 1) 0
    simpa using segText_recovers input (collectGlobal exec input.length) 0 0 hsp (by omega)
  · intro mi
    simp [colorOf]

theorem highlighted_recovers_input_witness :
    segText (highlightSegs ['a', 'b'] 0 0 [⟨['b'], 1, [], []⟩]) = ['a', 'b'] :=
  (highlighted_recovers_input ['a', 'b'] [⟨['b'], 1, [], []⟩] (fun _ => none)).2.2.1
    (by decide)

/-- `interface MatchResult` (src/index.ts lines 226-235). -/
structure MatchResult where
  input : List Char
  «matches» : List MatchRecord
  highlighted : List Char
deriving DecidableEq, Repr

/-- One element of the structured-output array built by `main`
(src/index.ts lines 390-394): input, matchCount and the match array; the
`highlighted` field is not carried over. -/
structure JsonEntry where
  input : List Char
  matchCount : Nat
  «matches» : List MatchRecord
deriving DecidableEq, Repr

/-- `jsonOut` (src/index.ts lines 390-394). -/
def jsonOut (rs : List MatchResult) : List JsonEntry :=
  rs.map fun r => ⟨r.input, r.«matches».length, r.«matches»⟩

/-- The third argument passed to the host serializer `JSON.stringify`
(src/index.ts line 395): the number of spaces of indentation. -/
def jsonIndentArg : Nat := 2

/-- C7: structured output is an ordered array with exactly one entry per
tested input, each entry holding that result's input, a matchCount equal
to the length of its match list, and the match records themselves (whose
fields are exactly full/index/groups/namedGroups); the entry is
independent of the `highlighted` field, which is omitted entirely; the
host serializer is invoked with 2-space indentation. -/
theorem structured_output_shape (rs : List MatchResult) :
    (jsonOut rs).length = rs.length ∧
    (∀ e, e ∈ jsonOut rs → e.matchCount = e.«matches».length) ∧
    (∀ i : Nat, (jsonOut rs)[i]? =
      (rs[i]?).map fun r => (⟨r.input, r.«matches».length, r.«matches»⟩ : JsonEntry)) ∧
    (∀ f : MatchResult → List Char,
      jsonOut (rs.map fun r => ⟨r.input, r.«matches», f r⟩) = jsonOut rs) ∧
    jsonIndentArg = 2 := by
  refine ⟨by simp [jsonOut], ?_, ?_, ?_, rfl⟩
  · intro e he
    simp only [jsonOut, List.mem_map] at he
    obtain ⟨r, _, hr⟩ := he
    subst hr
    rfl
  · intro i
    simp [jsonOut]
  · intro f
    simp [jsonOut]

theorem structured_output_shape_witness :
    (⟨['a'], 0, []⟩ : JsonEntry).matchCount = (⟨['a'], 0, []⟩ : JsonEntry).«matches».length :=
  (structured_output_shape [⟨['a'], [], ['a']⟩]).2.1 ⟨['a'], 0, []⟩ (by decide)

/-- `interface Options` (src/index.ts lines 28-36). -/
structure Options where
  help : Bool
  json : Bool
  pattern : List Char
  strings : List (List Char)
  flags : List Char
  bulk : Option (List Char)
  explain : Bool
deriving DecidableEq, Repr

/-- The initial options of `parseArgs` (src/index.ts lines 40-47). -/
def initOptions : Options :=
  ⟨false, false, [], [], str "g", none, false⟩

/-- One iteration of the `parseArgs` while-loop (src/index.ts lines
50-68): the updated options, plus whether the following argument was
consumed as the value of `--flags`/`--bulk`.  A JS truthy test on
`argv[i + 1]` is modelled as "a next element exists and is nonempty";
when it fails, the dash-prefixed option word falls through all remaining
branches and only the index advances. -/
def parseStep (opts : Options) (a : List Char) (rest : List (List Char)) : Options × Bool :=
  if a = str "--help" ∨ a = str "-h" then ({ opts with help := true }, false)
  else if a = str "--json" then ({ opts with json := true }, false)
  else if a = str "--explain" then ({ opts with explain := true }, false)
  else if a = str "--flags" then
    if rest.head?.getD [] = [] then (opts, false)
    else ({ opts with flags := rest.head?.getD [] }, true)
  else if a = str "--bulk" then
    if rest.head?.getD [] = [] then (opts, false)
    else ({ opts with bulk := some (rest.head?.getD []) }, true)
  else if opts.pattern = [] ∧ a.head? ≠ some '-' then ({ opts with pattern := a }, false)
  else if a.head? ≠ some '-' then ({ opts with strings := opts.strings ++ [a] }, false)
  else (opts, false)

/-- The `parseArgs` while-loop (src/index.ts lines 50-68). -/
def parseArgsGo (opts : Options) : List (List Char) → Options
  | [] => opts
  | a :: rest =>
    let s := parseStep opts a rest
    if s.2 then
      match rest with
      | [] => s.1
      | _ :: rest' => parseArgsGo s.1 rest'
    else parseArgsGo s.1 rest

/-- `parseArgs` (src/index.ts lines 39-71). -/
def parseArgs (argv : List (List Char)) : Options := parseArgsGo initOptions argv

theorem parseArgsGo_nil (opts : Options) : parseArgsGo opts [] = opts := rfl

theorem parseArgsGo_cons (opts : Options) (a : List Char) (rest : List (List Char)) :
    parseArgsGo opts (a :: rest) =
      if (parseStep opts a rest).2 = true then
        match rest with
        | [] => (parseStep opts a rest).1
        | _ :: rest' => parseArgsGo (parseStep opts a rest).1 rest'
      else parseArgsGo (parseStep opts a rest).1 rest := by
  cases rest with
  | nil => rfl
  | cons b rest' => rfl

/-- `content.split("\n").filter(Boolean)` (src/index.ts line 362): the
bulk file's non-empty lines. -/
def splitLines (content : List Char) : List (List Char) :=
  (content.splitOn '\n').filter fun l => !l.isEmpty

/-- The test strings `main` will use: positional strings, overridden by
the bulk file's non-empty lines when `--bulk` was given; `none` models a
file read failure (src/index.ts lines 358-368). -/
def resolveStrings (opts : Options) (readFile : List Char → Option (List Char)) :
    Option (List (List Char)) :=
  match opts.bulk with
  | some path => (readFile path).map splitLines
  | none => some opts.strings

/-- The process exit code of `main` (src/index.ts lines 327-405) as a
function of the argument vector, an abstract filesystem reader and an
abstract host-regex validity test (`new RegExp(pattern, flags)` not
throwing, checked inside `testString` on the first tested string): `0` is
the implicit success exit, `1` the `process.exit(1)` calls. -/
def mainExit (argv : List (List Char)) (readFile : List Char → Option (List Char))
    (validRegex : List Char → List Char → Bool) : Nat :=
  let opts := parseArgs argv
  if opts.help then 0
  else if opts.pattern = [] then 1
  else if opts.explain ∧ opts.strings = [] ∧ opts.bulk = none then 0
  else
    match resolveStrings opts readFile with
    | none => 1
    | some strs =>
      if strs = [] then 1
      else if validRegex opts.pattern opts.flags then 0 else 1

/-- C8: the exit code is always 0 or 1, and it is 0 exactly when help was
requested (which takes priority over all validation), or a pattern is
present and either explain mode is active with no test strings and no
bulk file, or the resolved test strings are nonempty and the
pattern/flags combination is valid; equivalently it is 1 exactly on
missing pattern, missing test strings, invalid pattern/flags, or
bulk-file read failure. -/
theorem mainExit_codes (argv : List (List Char)) (readFile : List Char → Option (List Char))
    (validRegex : List Char → List Char → Bool) :
    (mainExit argv readFile validRegex = 0 ∨ mainExit argv readFile validRegex = 1) ∧
    (mainExit argv readFile validRegex = 0 ↔
      (parseArgs argv).help = true ∨
      ((parseArgs argv).pattern ≠ [] ∧
        (((parseArgs argv).explain = true ∧ (parseArgs argv).strings = [] ∧
            (parseArgs argv).bulk = none) ∨
          (∃ strs, resolveStrings (parseArgs argv) readFile = some strs ∧ strs ≠ [] ∧
            validRegex (parseArgs argv).pattern (parseArgs argv).flags = true)))) := by
  by_cases hh : (parseArgs argv).help = true
  · simp [mainExit, hh]
  · by_cases hp : (parseArgs argv).pattern = []
    · simp [mainExit, hh, hp]
    · by_cases hex : (parseArgs argv).explain = true ∧ (parseArgs argv).strings = [] ∧
        (parseArgs argv).bulk = none
      · simp [mainExit, hh, hp, hex]
      · cases hres : resolveStrings (parseArgs argv) readFile with
        | none => simp [mainExit, hh, hp, hex, hres]
        | some strs =>
          by_cases hs : strs = []
          · simp [mainExit, hh, hp, hex, hres, hs]
          · by_cases hv : validRegex (parseArgs argv).pattern (parseArgs argv).flags = true
            · simp [mainExit, hh, hp, hex, hres, hs, hv]
            · simp [mainExit, hh, hp, hex, hres, hs, hv]

theorem parseStep_pattern (opts : Options) (a : List Char) (rest : List (List Char))
    (h : opts.pattern.head? ≠ some '-') :
    (parseStep opts a rest).1.pattern.head? ≠ some '-' := by
  unfold parseStep
  split_ifs <;> simp_all

theorem parseStep_strings (opts : Options) (a : List Char) (rest : List (List Char))
    (h : ∀ x, x ∈ opts.strings → x.head? ≠ some '-') :
    ∀ x, x ∈ (parseStep opts a rest).1.strings → x.head? ≠ some '-' := by
  unfold parseStep
  split_ifs <;> try simpa using h
  all_goals
    intro x hx
    simp only [List.mem_append, List.mem_singleton] at hx
    rcases hx with hx | hx
    · exact h x hx
    · subst hx
      simp_all

theorem parseArgsGo_pattern :
    ∀ (argv : List (List Char)) (opts : Options),
      opts.pattern.head? ≠ some '-' → (parseArgsGo opts argv).pattern.head? ≠ some '-'
  | [], opts, h => by simpa [parseArgsGo] using h
  | a :: rest, opts, h => by
    have hstep := parseStep_pattern opts a rest h
    rw [parseArgsGo_cons]
    by_cases hs : (parseStep opts a rest).2 = true
    · rw [if_pos hs]
      cases rest with
      | nil => exact hstep
      | cons b rest' => exact parseArgsGo_pattern rest' _ hstep
    · rw [if_neg hs]
      exact parseArgsGo_pattern rest _ hstep
termination_by argv => argv.length
decreasing_by all_goals (simp only [List.length_cons]; omega)

theorem parseArgsGo_strings :
    ∀ (argv : List (List Char)) (opts : Options),
      (∀ x, x ∈ opts.strings → x.head? ≠ some '-') →
      ∀ x, x ∈ (parseArgsGo opts argv).strings → x.head? ≠ some '-'
  | [], opts, h => by simpa [parseArgsGo] using h
  | a :: rest, opts, h => by
    have hstep := parseStep_strings opts a rest h
    rw [parseArgsGo_cons]
    by_cases hs : (parseStep opts a rest).2 = true
    · rw [if_pos hs]
      cases rest with
      | nil => exact hstep
      | cons b rest' => exact parseArgsGo_strings rest' _ hstep
    · rw [if_neg hs]
      exact parseArgsGo_strings rest _ hstep
termination_by argv => argv.length
decreasing_by all_goals (simp only [List.length_cons]; omega)

/-- C9: `parseArgs` never assigns a dash-prefixed argument as the pattern
or as a test string (so a pattern beginning with '-' cannot be supplied);
an unrecognized dash-prefixed option is silently skipped with no effect
on the options; and `--flags` or `--bulk` as the final argument with no
following value is ignored, leaving the options unchanged — in particular
the flags keep the default "g" and no bulk path is set. -/
theorem parseArgs_dash_behavior (argv : List (List Char)) :
    (parseArgs argv).pattern.head? ≠ some '-' ∧
    (∀ s, s ∈ (parseArgs argv).strings → s.head? ≠ some '-') ∧
    (∀ (opts : Options) (a : List Char) (rest : List (List Char)),
      a.head? = some '-' → a ≠ str "--help" → a ≠ str "-h" → a ≠ str "--json" →
      a ≠ str "--explain" → a ≠ str "--flags" → a ≠ str "--bulk" →
      parseArgsGo opts (a :: rest) = parseArgsGo opts rest) ∧
    (∀ opts : Options, parseArgsGo opts [str "--flags"] = opts) ∧
    (∀ opts : Options, parseArgsGo opts [str "--bulk"] = opts) ∧
    (parseArgs [str "--flags"]).flags = str "g" ∧
    (parseArgs [str "--bulk"]).bulk = none := by
  refine ⟨parseArgsGo_pattern argv initOptions (by decide),
    parseArgsGo_strings argv initOptions (by simp [initOptions]),
    ?_, ?_, ?_, by decide, by decide⟩
  · intro opts a rest hdash hn1 hn2 hn3 hn4 hn5 hn6
    have hstep : parseStep opts a rest = (opts, false) := by
      unfold parseStep
      simp [hn1, hn2, hn3, hn4, hn5, hn6, hdash]
    rw [parseArgsGo_cons, hstep]
    simp
  · intro opts
    rw [parseArgsGo_cons]
    simp [parseStep, str, parseArgsGo_nil]
  · intro opts
    rw [parseArgsGo_cons]
    simp [parseStep, str, parseArgsGo_nil]

theorem parseArgs_dash_behavior_witness :
    parseArgsGo initOptions [['-', 'x'], ['a']] = parseArgsGo initOptions [['a']] :=
  (parseArgs_dash_behavior []).2.2.1 initOptions ['-', 'x'] [['a']] rfl
    (by decide) (by decide) (by decide) (by decide) (by decide) (by decide)
